import Mathlib

/-!
Verification of the Sinhala script segmentation and sign-rule dispatch core
of the signosi translation backend.  Words are modelled as lists of
characters (Python strings), segmentation units as lists of characters
(Python one- or two-character strings), and the dictionary tables as
association lists.  All definitions are shallow embeddings of the Python
functions in `backend_python/letter_mapping_service.py`,
`backend_python/app/services/translation_service.py`,
`sign_language_translator/languages/sign/mapping_rules.py` and
`sign_language_translator/languages/sign/sinhala_sign_language.py`.
-/

/-- The set `SINHALA_CONSONANTS` from `letter_mapping_service.py`, in source
order (the fifth entry is the non-Sinhala codepoint present in the source). -/
def sinhalaConsonants : List Char :=
  ['ක', 'ඛ', 'ග', 'ඝ', 'ങ', 'ච', 'ඡ', 'ජ', 'ඣ', 'ඤ', 'ට', 'ඨ', 'ඩ', 'ඪ', 'ණ',
   'ත', 'ථ', 'ද', 'ධ', 'න', 'ප', 'ඵ', 'බ', 'භ', 'ම', 'ය', 'ර', 'ල', 'ව',
   'ශ', 'ෂ', 'ස', 'හ', 'ළ', 'ෆ']

/-- Membership test in `SINHALA_CONSONANTS`. -/
def isConsonant (c : Char) : Bool :=
  sinhalaConsonants.contains c

/-- The dict `SINHALA_VOWEL_MODIFIERS` from `letter_mapping_service.py`:
dependent vowel sign to the corresponding independent vowel letter. -/
def vowelModifierMap : List (Char × Char) :=
  [('ා', 'ආ'), ('ැ', 'ඇ'), ('ෑ', 'ඈ'), ('ි', 'ඉ'), ('ී', 'ඊ'), ('ු', 'උ'),
   ('ූ', 'ඌ'), ('ෘ', 'ඍ'), ('ෙ', 'එ'), ('ේ', 'ඒ'), ('ෛ', 'ඓ'), ('ො', 'ඔ'),
   ('ෝ', 'ඕ'), ('ෞ', 'ඖ'), ('ෲ', 'ඎ')]

/-- Lookup in `SINHALA_VOWEL_MODIFIERS`. -/
def modifierToVowel (c : Char) : Option Char :=
  match vowelModifierMap.find? (fun p => p.1 == c) with
  | some p => some p.2
  | none => none

/-- Membership test in the keys of `SINHALA_VOWEL_MODIFIERS`. -/
def isModifier (c : Char) : Bool :=
  (modifierToVowel c).isSome

/-- The set `SINHALA_INDEPENDENT_VOWELS` from `letter_mapping_service.py`. -/
def sinhalaIndependentVowels : List Char :=
  ['අ', 'ආ', 'ඇ', 'ඈ', 'ඉ', 'ඊ', 'උ', 'ඌ', 'ඍ', 'ඎ', 'එ', 'ඒ', 'ඓ', 'ඔ',
   'ඕ', 'ඖ']

/-- Membership test in `SINHALA_INDEPENDENT_VOWELS`. -/
def isIndependentVowel (c : Char) : Bool :=
  sinhalaIndependentVowels.contains c

/-- The virama `HAL_KIRIMA` of `letter_mapping_service.py`. -/
def halKirima : Char := '්'

/-- The set `SINHALA_COMBINING_MARKS` (modifier keys together with the
virama) of `letter_mapping_service.py`; `translation_service.py` duplicates
the same sixteen characters as `SINHALA_COMBINING_MARKS_SET`. -/
def isCombiningMark (c : Char) : Bool :=
  isModifier c || c = halKirima

/-- A character that the segmenter recognises as a consonant or an
independent vowel; all other characters take the passthrough branch of
`break_word_to_letters`. -/
def isRecognised (c : Char) : Bool :=
  isConsonant c || isIndependentVowel c

/-- `LetterMappingService.break_word_to_letters`: detailed segmentation of a
word into phonetic units (each unit a one- or two-character string). -/
def breakWordToLetters : List Char → List (List Char)
  | [] => []
  | [c] =>
    if isConsonant c then [[c, halKirima], ['අ']] else [[c]]
  | c :: next :: rest' =>
    if isConsonant c then
      match modifierToVowel next with
      | some v => [c, halKirima] :: [v] :: breakWordToLetters rest'
      | none =>
        if next = halKirima then
          [c, halKirima] :: breakWordToLetters rest'
        else
          [c, halKirima] :: ['අ'] :: breakWordToLetters (next :: rest')
    else
      [c] :: breakWordToLetters (next :: rest')

/-- Instrumented form of `break_word_to_letters`: for every loop iteration,
the pair of the input characters it consumed and the units it emitted. -/
def breakSteps : List Char → List (List Char × List (List Char))
  | [] => []
  | [c] =>
    if isConsonant c then [([c], [[c, halKirima], ['අ']])] else [([c], [[c]])]
  | c :: next :: rest' =>
    if isConsonant c then
      match modifierToVowel next with
      | some v => ([c, next], [[c, halKirima], [v]]) :: breakSteps rest'
      | none =>
        if next = halKirima then
          ([c, next], [[c, halKirima]]) :: breakSteps rest'
        else
          ([c], [[c, halKirima], ['අ']]) :: breakSteps (next :: rest')
    else
      ([c], [[c]]) :: breakSteps (next :: rest')

/-- Characters consumed by a list of instrumented steps, in order. -/
def stepsConsumed (steps : List (List Char × List (List Char))) : List Char :=
  (steps.map Prod.fst).flatten

/-- Units emitted by a list of instrumented steps, in order. -/
def stepsEmitted (steps : List (List Char × List (List Char))) :
    List (List Char) :=
  (steps.map Prod.snd).flatten

/-- `LetterMappingService._normalize_prebase_vowel_signs`: storage-order
normalisation of the raw string (swap a pre-base vowel sign stored before
its consonant; fold the split sequences that the helper
`combine_split_vowel_signs` recognises). -/
def normalizePrebase : List Char → List Char
  | [] => []
  | [c0] =>
    if c0 = 'ෙ' then ['ෙ'] else if isConsonant c0 then [c0] else [c0]
  | c0 :: c1 :: rest =>
    if c0 = 'ෙ' then
      if isConsonant c1 then
        match rest with
        | d :: r =>
          if d = 'ා' then c1 :: 'ො' :: normalizePrebase r
          else if d = 'ී' then c1 :: 'ේ' :: normalizePrebase r
          else c1 :: 'ෙ' :: normalizePrebase (d :: r)
        | [] => c1 :: 'ෙ' :: normalizePrebase []
      else
        'ෙ' :: normalizePrebase (c1 :: rest)
    else if isConsonant c0 then
      if c1 = 'ෙ' then
        match rest with
        | d :: r2 =>
          if d = 'ා' then c0 :: 'ො' :: normalizePrebase r2
          else if d = 'ී' then c0 :: 'ේ' :: normalizePrebase r2
          else c0 :: 'ෙ' :: normalizePrebase (d :: r2)
        | [] => c0 :: 'ෙ' :: normalizePrebase []
      else if c1 = 'ො' ∨ c1 = 'ෝ' ∨ c1 = 'ෞ' then
        c0 :: c1 :: normalizePrebase rest
      else
        c0 :: normalizePrebase (c1 :: rest)
    else
      c0 :: normalizePrebase (c1 :: rest)

/-- Python membership `next_token in SINHALA_INDEPENDENT_VOWELS` on a unit
(a set of one-character strings): the vowel when the unit is a single
independent vowel. -/
def singletonVowel (u : List Char) : Option Char :=
  match u with
  | [v] => if isIndependentVowel v then some v else none
  | _ => none

/-- One reduction step of `_break_word_letters_option_b` applied to the
detailed unit list: a consonant-with-virama unit followed by the inherent
vowel collapses to the bare consonant; followed by another independent
vowel it yields consonant then vowel; otherwise units pass through. -/
def reduceOptionB : List (List Char) → List (List Char)
  | [] => []
  | [tok] =>
    match tok with
    | [c, m] => if m = halKirima ∧ isConsonant c then [[c]] else [tok]
    | _ => [tok]
  | tok :: next :: rest' =>
    match tok with
    | [c, m] =>
      if m = halKirima ∧ isConsonant c then
        match singletonVowel next with
        | some v =>
          if v = 'අ' then [c] :: reduceOptionB rest'
          else [c] :: [v] :: reduceOptionB rest'
        | none => [c] :: reduceOptionB (next :: rest')
      else
        tok :: reduceOptionB (next :: rest')
    | _ =>
      tok :: reduceOptionB (next :: rest')

/-- Instrumented form of the `_break_word_letters_option_b` reduction loop:
for every iteration, the detailed units it consumed and the reduced units it
emitted. -/
def reduceSteps :
    List (List Char) → List (List (List Char) × List (List Char))
  | [] => []
  | [tok] =>
    match tok with
    | [c, m] =>
      if m = halKirima ∧ isConsonant c then [([tok], [[c]])]
      else [([tok], [tok])]
    | _ => [([tok], [tok])]
  | tok :: next :: rest' =>
    match tok with
    | [c, m] =>
      if m = halKirima ∧ isConsonant c then
        match singletonVowel next with
        | some v =>
          if v = 'අ' then ([tok, next], [[c]]) :: reduceSteps rest'
          else ([tok, next], [[c], [v]]) :: reduceSteps rest'
        | none => ([tok], [[c]]) :: reduceSteps (next :: rest')
      else
        ([tok], [tok]) :: reduceSteps (next :: rest')
    | _ =>
      ([tok], [tok]) :: reduceSteps (next :: rest')

/-- `LetterMappingService._break_word_letters_option_b`: normalise the raw
word, segment it into detailed units, then reduce to base consonants and
independent vowels. -/
def optionBLetters (w : List Char) : List (List Char) :=
  reduceOptionB (breakWordToLetters (normalizePrebase w))

/-- One output entry of `get_word_as_letter_sequence`: the sign dictionary
built for a single reduced letter. -/
structure LetterSign where
  label : String
  landmarkData : Option String
  mediaType : String
  letter : String
deriving DecidableEq

/-- Membership of a string in a list of strings, compared by contents
(Python `letter in self.letter_landmarks`). -/
def strMem (s : String) (l : List String) : Bool :=
  l.any (fun t => t.data = s.data)

/-- The body of the `for letter in letters` loop of
`get_word_as_letter_sequence`: a real entry when landmark data is available
for the letter, a null-asset placeholder entry otherwise. -/
def letterEntry (avail : List String) (letter : String) : LetterSign :=
  if strMem letter avail then
    { label := "letter_" ++ letter,
      landmarkData := some ("/api/translate/landmark-data/" ++ letter ++ ".json"),
      mediaType := "landmarks",
      letter := letter }
  else
    { label := "unknown_letter_" ++ letter,
      landmarkData := none,
      mediaType := "landmarks",
      letter := letter }

/-- The `for letter in letters` loop of `get_word_as_letter_sequence`,
appending one entry per reduced letter. -/
def letterSignsLoop (avail : List String) : List (List Char) → List LetterSign
  | [] => []
  | l :: ls => letterEntry avail (String.mk l) :: letterSignsLoop avail ls

/-- `LetterMappingService.get_word_as_letter_sequence`, parameterised by the
set of letters for which landmark files were loaded. -/
def getWordAsLetterSequence (avail : List String) (word : String) :
    List LetterSign :=
  letterSignsLoop avail (optionBLetters word.data)

/-- One resolved sign entry as seen by the fallback loop of
`translate_text_to_slsl`: its label and which of the three media kinds the
asset lookup found. -/
structure SignInfo where
  label : String
  hasVideo : Bool
  hasAnimation : Bool
  hasLandmark : Bool
deriving DecidableEq

/-- An entry of the enhanced output list of `translate_text_to_slsl`: either
an original resolved sign or a letter-spelling entry. -/
inductive OutSign where
  | orig (s : SignInfo)
  | letter (l : LetterSign)
deriving DecidableEq

/-- List-contents test of Python `str.startswith` for the fixed pattern
argument order `listStarts pattern s`. -/
def listStarts : List Char → List Char → Bool
  | [], _ => true
  | _ :: _, [] => false
  | a :: as, b :: bs => a == b && listStarts as bs

/-- Python `label.startswith("letter_")`. -/
def labelStartsWithLetter (s : String) : Bool :=
  listStarts "letter_".data s.data

/-- The helper `_has_sinhala_combining_marks` of `translate_text_to_slsl`. -/
def hasSinhalaCombiningMarksStr (s : String) : Bool :=
  s.data.any isCombiningMark

/-- The helper `_expected_option_b_len` of `translate_text_to_slsl`: the
length of the letter-spelling sequence for a token. -/
def expectedOptionBLen (avail : List String) (s : String) : Nat :=
  (getWordAsLetterSequence avail s).length

/-- The body of the `for i, sign_info in enumerate(signs_data)` loop of
`translate_text_to_slsl`: letter fallback when no media kind is present,
letter override when the label carries combining marks and reduces to more
than one unit, original entry otherwise. -/
def enhanceSign (avail : List String) (s : SignInfo) : List OutSign :=
  if s.hasVideo = false ∧ s.hasAnimation = false ∧ s.hasLandmark = false ∧
      s.label ≠ "" ∧ labelStartsWithLetter s.label = false then
    match getWordAsLetterSequence avail s.label with
    | [] => [OutSign.orig s]
    | l :: ls => (l :: ls).map OutSign.letter
  else if s.label ≠ "" ∧ labelStartsWithLetter s.label = false ∧
      hasSinhalaCombiningMarksStr s.label = true ∧
      1 < expectedOptionBLen avail s.label then
    match getWordAsLetterSequence avail s.label with
    | [] => [OutSign.orig s]
    | l :: ls => (l :: ls).map OutSign.letter
  else
    [OutSign.orig s]

/-- The whole fallback/override loop of `translate_text_to_slsl` over the
signs returned by the model. -/
def enhancedSigns (avail : List String) (signs : List SignInfo) :
    List OutSign :=
  (signs.map (enhanceSign avail)).flatten

/-- A sign dictionary entry (Python `{"signs": ..., "weights": ...}`).
Modelled from the spec for the key names: the upstream `SignLanguage` base
class defining `SignDictKeys` is not under src; the spec's SignSpec carries
an ordered label-sequence list and weights. -/
structure SignDict where
  signs : List (List String)
  weights : List ℚ
deriving DecidableEq

/-- Modelled from the spec: the upstream token-tag enum
`sign_language_translator.text.Tags` is not under src; the spec's TagKind is
{Default, Number, Name, Unknown, Space, Punctuation}. -/
inductive Tag where
  | default
  | number
  | name
  | unknown
  | space
  | punctuation
deriving DecidableEq

/-- One element of a Python collection passed as a tag: either a scalar tag
or a once-nested collection of tags (the shape
`CharacterByCharacterMappingRule.is_applicable` flattens). -/
inductive PyTagElem where
  | atom (t : Tag)
  | group (ts : List Tag)
deriving DecidableEq

/-- A Python value passed as the `tag` argument of `is_applicable`: `None`,
a scalar tag, or a list/tuple/set of elements. -/
inductive PyTag where
  | none
  | atom (t : Tag)
  | coll (items : List PyTagElem)
deriving DecidableEq

/-- The one-level flattening loop of
`CharacterByCharacterMappingRule.is_applicable` (`flat_tags`). -/
def flattenTags (items : List PyTagElem) : List Tag :=
  items.flatMap (fun it =>
    match it with
    | PyTagElem.atom t => [t]
    | PyTagElem.group ts => ts)

/-- The `tag_is_allowed` computation of
`CharacterByCharacterMappingRule.is_applicable`. -/
def tagAllowed (allowed : List Tag) (tag : PyTag) : Bool :=
  match tag with
  | PyTag.none => false
  | PyTag.atom t => allowed.contains t
  | PyTag.coll items => (flattenTags items).any (fun t => allowed.contains t)

/-- Association-list lookup by string contents (Python dict indexing with
string keys). -/
def lookupW : List (String × SignDict) → String → Option SignDict
  | [], _ => none
  | (k, v) :: rest, s => if k.data = s.data then some v else lookupW rest s

/-- `CharacterByCharacterMappingRule.is_applicable`: the tag must be
allowed, every character of the token must be a key of the character table,
and the context argument is ignored. -/
def cbcIsApplicable {γ : Type} (table : List (String × SignDict))
    (allowed : List Tag) (token : String) (tag : PyTag) (_context : γ) :
    Bool :=
  tagAllowed allowed tag &&
    token.data.all (fun ch => (lookupW table (String.mk [ch])).isSome)

/-- `CharacterByCharacterMappingRule.apply`: map each character of the token
through the character table (total variant of the guarded dict access). -/
def cbcApply (table : List (String × SignDict)) (token : String) :
    List SignDict :=
  token.data.map (fun ch => (lookupW table (String.mk [ch])).getD ⟨[], []⟩)

/-- The ASCII branch of Python `str.lower` (identity on Sinhala; the full
Unicode case table is irrelevant to the claims). -/
def charLower (c : Char) : Char :=
  if 'A' ≤ c ∧ c ≤ 'Z' then Char.ofNat (c.toNat + 32) else c

/-- Python `token.lower()`. -/
def lowerStr (s : String) : String :=
  String.mk (s.data.map charLower)

/-- The filter of `__get_sinhala_spelling_rule`: single-character keys in
the Sinhala Unicode block 0x0D80-0x0DFF. -/
def isSinhalaSingleChar (s : String) : Bool :=
  match s.data with
  | [ch] => decide (0x0D80 ≤ ch.toNat) && decide (ch.toNat ≤ 0x0DFF)
  | _ => false

/-- The character table `sinhala_letter_signs` built by
`__get_sinhala_spelling_rule` from the word table. -/
def letterTable (wt : List (String × SignDict)) : List (String × SignDict) :=
  wt.filter (fun p => isSinhalaSingleChar p.1)

/-- Python `tag == Tags.NUMBER` (false for `None` and for collections). -/
def pyTagIsNumber : PyTag → Bool
  | PyTag.atom Tag.number => true
  | _ => false

/-- `chunk_number_simple` of `__get_number_rule`:
`list(filter(str.isdigit, num_str))`. -/
def tokenDigits (token : String) : List Char :=
  token.data.filter Char.isDigit

/-- `DirectMappingRule.is_applicable`: the token is a key of the word
table. -/
def directIsApplicable (wt : List (String × SignDict)) (token : String) :
    Bool :=
  (lookupW wt token).isSome

/-- `DirectMappingRule.apply` for the Sinhala direct rule, whose
`token_to_object` maps each word `w` to the one-element list
`[word_to_sign_dict[w]]`. -/
def directApply (wt : List (String × SignDict)) (token : String) :
    List SignDict :=
  match lookupW wt token with
  | some sd => [sd]
  | none => []

/-- The applicability lambda of `__get_number_rule`: the tag equals Number
and every digit character of the token is a key of the word table. -/
def numberIsApplicable (wt : List (String × SignDict)) (token : String)
    (tag : PyTag) : Bool :=
  pyTagIsNumber tag &&
    (tokenDigits token).all (fun d => (lookupW wt (String.mk [d])).isSome)

/-- The apply lambda of `__get_number_rule`: one sign dictionary per digit
of the token, in digit order (with the redundant membership re-check of the
source kept as a filter). -/
def numberApply (wt : List (String × SignDict)) (token : String) :
    List SignDict :=
  (tokenDigits token).filterMap (fun d => lookupW wt (String.mk [d]))

/-- `is_applicable` of the spelling rule built by
`__get_sinhala_spelling_rule`: the never-applicable dummy lambda rule when
no letter signs exist, the character-by-character rule with allowed tags
{Default, Name} otherwise. -/
def spellingIsApplicable {γ : Type} (wt : List (String × SignDict))
    (token : String) (tag : PyTag) (context : γ) : Bool :=
  if letterTable wt = [] then false
  else cbcIsApplicable (letterTable wt) [Tag.default, Tag.name] token tag
    context

/-- `apply` of the spelling rule built by `__get_sinhala_spelling_rule`. -/
def spellingApply (wt : List (String × SignDict)) (token : String) :
    List SignDict :=
  if letterTable wt = [] then [] else cbcApply (letterTable wt) token

/-- The three mapping rules constructed in `SinhalaSignLanguage.__init__`. -/
inductive SinRule where
  | direct
  | number
  | spelling
deriving DecidableEq

/-- The priorities passed in `SinhalaSignLanguage.__init__`: direct 1,
number 3, spelling 5. -/
def rulePriority : SinRule → Nat
  | SinRule.direct => 1
  | SinRule.number => 3
  | SinRule.spelling => 5

/-- Insertion step of sorting the rule list by ascending priority. -/
def insertByPriority (r : SinRule) : List SinRule → List SinRule
  | [] => [r]
  | x :: xs =>
    if rulePriority r ≤ rulePriority x then r :: x :: xs
    else x :: insertByPriority r xs

/-- Sorting by ascending priority (Python
`sorted(..., key=lambda rule: rule.priority)`). -/
def sortByPriority (rs : List SinRule) : List SinRule :=
  rs.foldr insertByPriority []

/-- `self.mapping_rules`: the list `[direct, spelling, number]` sorted by
ascending priority. -/
def mappingRules : List SinRule :=
  sortByPriority [SinRule.direct, SinRule.spelling, SinRule.number]

/-- Dispatch of `rule.is_applicable(token_lower, tag, context)` over the
three rule variants (none of which reads the context). -/
def ruleIsApplicable {γ : Type} (wt : List (String × SignDict))
    (r : SinRule) (token : String) (tag : PyTag) (context : γ) : Bool :=
  match r with
  | SinRule.direct => directIsApplicable wt token
  | SinRule.number => numberIsApplicable wt token tag
  | SinRule.spelling => spellingIsApplicable wt token tag context

/-- Dispatch of `rule.apply(token_lower)` over the three rule variants. -/
def ruleApply (wt : List (String × SignDict)) (r : SinRule)
    (token : String) : List SignDict :=
  match r with
  | SinRule.direct => directApply wt token
  | SinRule.number => numberApply wt token
  | SinRule.spelling => spellingApply wt token

/-- The `for rule in self.mapping_rules` loop of
`SinhalaSignLanguage._apply_rules`: return the apply-result of the first
applicable rule; `none` models the final `ValueError` when no rule
applies. -/
def applyRulesFrom {γ : Type} (wt : List (String × SignDict))
    (rs : List SinRule) (token : String) (tag : PyTag) (context : γ) :
    Option (List SignDict) :=
  match rs with
  | [] => none
  | r :: rest =>
    if ruleIsApplicable wt r token tag context then
      some (ruleApply wt r token)
    else
      applyRulesFrom wt rest token tag context

/-- `SinhalaSignLanguage._apply_rules`: lowercase the token, then scan the
priority-sorted rule list. -/
def applyRules {γ : Type} (wt : List (String × SignDict)) (token : String)
    (tag : PyTag) (context : γ) : Option (List SignDict) :=
  applyRulesFrom wt mappingRules (lowerStr token) tag context

/-- Result of processing one token in
`SinhalaSignLanguage.tokens_to_sign_dicts`: either sign dictionaries or the
final `No SLSL sign/rule could be inferred` error naming the token. -/
inductive TokenResult where
  | ok (dicts : List SignDict)
  | noSignInferred (token : String)
deriving DecidableEq

/-- The per-token body of `SinhalaSignLanguage.tokens_to_sign_dicts`: run
`_apply_rules`; on its `ValueError`, retry once by forcing the spelling
rule's `is_applicable` with tag `Tags.DEFAULT` on the lowercased token, and
otherwise fail with the final error naming the token. -/
def processToken {γ : Type} (wt : List (String × SignDict)) (token : String)
    (tag : PyTag) (context : γ) : TokenResult :=
  match applyRules wt token tag context with
  | some ds => TokenResult.ok ds
  | none =>
    if spellingIsApplicable wt (lowerStr token) (PyTag.atom Tag.default)
        context then
      TokenResult.ok (spellingApply wt (lowerStr token))
    else
      TokenResult.noSignInferred token

/-- The token loop of `SinhalaSignLanguage.tokens_to_sign_dicts`: extend the
result list per token, propagating the first final error. -/
def tokensToSignDicts {γ : Type} (wt : List (String × SignDict)) :
    List (String × PyTag × γ) → Except String (List SignDict)
  | [] => Except.ok []
  | (t, tag, c) :: rest =>
    match processToken wt t tag c with
    | TokenResult.ok ds =>
      match tokensToSignDicts wt rest with
      | Except.ok more => Except.ok (ds ++ more)
      | Except.error e => Except.error e
    | TokenResult.noSignInferred tok => Except.error tok

lemma stepsConsumed_breakSteps (w : List Char) :
    stepsConsumed (breakSteps w) = w := by
  induction w using breakSteps.induct with
  | _ => simp_all [breakSteps, stepsConsumed]

lemma stepsEmitted_breakSteps (w : List Char) :
    stepsEmitted (breakSteps w) = breakWordToLetters w := by
  induction w using breakSteps.induct with
  | _ => simp_all [breakSteps, breakWordToLetters, stepsEmitted]

lemma breakSteps_pass (c : Char) (rest : List Char)
    (h : isRecognised c = false) :
    breakSteps (c :: rest) = ([c], [[c]]) :: breakSteps rest := by
  have hc : isConsonant c = false := by
    unfold isRecognised at h
    exact (Bool.or_eq_false_iff.mp h).1
  cases rest with
  | nil => simp [breakSteps, hc]
  | cons a t => simp [breakSteps, hc]

lemma reduceSteps_fst (ts : List (List Char)) :
    ((reduceSteps ts).map Prod.fst).flatten = ts := by
  induction ts using reduceSteps.induct with
  | case3 c m h =>
    simp [reduceSteps, h]
  | case8 next rest' c m h ih =>
    simpa [reduceSteps, h] using ih
  | _ => simp_all [reduceSteps]

lemma reduceSteps_snd (ts : List (List Char)) :
    ((reduceSteps ts).map Prod.snd).flatten = reduceOptionB ts := by
  induction ts using reduceSteps.induct with
  | case3 c m h =>
    simp [reduceSteps, reduceOptionB, h]
  | case8 next rest' c m h ih =>
    simpa [reduceSteps, reduceOptionB, h] using ih
  | _ => simp_all [reduceSteps, reduceOptionB]

lemma breakWord_implicit (c : Char) (rest : List Char)
    (hc : isConsonant c = true)
    (h : ∀ a, rest.head? = some a → isModifier a = false ∧ a ≠ halKirima) :
    breakWordToLetters (c :: rest) =
      [c, halKirima] :: ['අ'] :: breakWordToLetters rest := by
  cases rest with
  | nil => simp [breakWordToLetters, hc]
  | cons a t =>
    obtain ⟨h1, h2⟩ := h a rfl
    have hmod : modifierToVowel a = none := by
      cases hm : modifierToVowel a with
      | none => rfl
      | some v => rw [isModifier, hm] at h1; simp at h1
    simp [breakWordToLetters, hc, hmod, h2]

lemma reduceOptionB_implicit (c : Char) (rest : List (List Char))
    (hc : isConsonant c = true) :
    reduceOptionB ([c, halKirima] :: ['අ'] :: rest) =
      [c] :: reduceOptionB rest := by
  simp [reduceOptionB, hc, singletonVowel,
    show isIndependentVowel 'අ' = true from by decide]

/-- C7: a bare consonant receives the implicit inherent vowel in the
detailed segmentation (also at the end of the input), and a
consonant-with-virama unit followed by the inherent vowel reduces to the
bare base consonant; concretely the single-consonant input yields the two
detailed units and the single reduced unit stated in the claim. -/
theorem claim_C7_implicit_inherent_vowel :
    (breakWordToLetters "ක".data = [['ක', halKirima], ['අ']] ∧
      optionBLetters "ක".data = [['ක']]) ∧
    (∀ (c : Char) (rest : List Char), isConsonant c = true →
      (∀ a, rest.head? = some a → isModifier a = false ∧ a ≠ halKirima) →
      breakWordToLetters (c :: rest) =
        [c, halKirima] :: ['අ'] :: breakWordToLetters rest) ∧
    (∀ (c : Char) (rest : List (List Char)), isConsonant c = true →
      reduceOptionB ([c, halKirima] :: ['අ'] :: rest) =
        [c] :: reduceOptionB rest) :=
  ⟨⟨by decide, by decide⟩, breakWord_implicit, reduceOptionB_implicit⟩

/-- Witness for C7 at the consonant `ත` followed by another consonant and
at the reduction of its detailed unit pair. -/
theorem claim_C7_witness :
    breakWordToLetters ['ත', 'ක'] =
      [['ත', halKirima], ['අ'], ['ක', halKirima], ['අ']] ∧
    reduceOptionB [['ත', halKirima], ['අ']] = [['ත']] := by
  constructor
  · have h := claim_C7_implicit_inherent_vowel.2.1 'ත' ['ක'] (by decide)
      (by intro a ha; simp at ha; subst ha; exact ⟨by decide, by decide⟩)
    rw [h]; decide
  · have h := claim_C7_implicit_inherent_vowel.2.2 'ත' [] (by decide)
    rw [h]; decide

/-- C3: segmentation and option-B reduction are total and account for every
input position exactly once: the characters consumed by the instrumented
steps re-join to the input, the emitted units re-join to the function
results, and a character that is neither a recognised consonant nor an
independent vowel is consumed alone and emitted as a passthrough unit. -/
theorem claim_C3_segmentation_totality :
    (∀ w : List Char, stepsConsumed (breakSteps w) = w) ∧
    (∀ w : List Char, stepsEmitted (breakSteps w) = breakWordToLetters w) ∧
    (∀ (c : Char) (rest : List Char), isRecognised c = false →
      breakSteps (c :: rest) = ([c], [[c]]) :: breakSteps rest) ∧
    (∀ ts : List (List Char), ((reduceSteps ts).map Prod.fst).flatten = ts) ∧
    (∀ ts : List (List Char),
      ((reduceSteps ts).map Prod.snd).flatten = reduceOptionB ts) :=
  ⟨stepsConsumed_breakSteps, stepsEmitted_breakSteps, breakSteps_pass,
    reduceSteps_fst, reduceSteps_snd⟩

/-- Witness for C3 at a mixed input containing the unrecognised characters
`x` and `!`. -/
theorem claim_C3_witness :
    isRecognised 'x' = false ∧
    breakSteps ['x', 'ක'] = (['x'], [['x']]) :: breakSteps ['ක'] ∧
    stepsConsumed (breakSteps "කx!ත්".data) = "කx!ත්".data := by
  refine ⟨by decide, ?_, ?_⟩
  · exact claim_C3_segmentation_totality.2.2.1 'x' ['ක'] (by decide)
  · exact claim_C3_segmentation_totality.1 _

lemma letterSignsLoop_eq_map (avail : List String) (ls : List (List Char)) :
    letterSignsLoop avail ls =
      ls.map (fun l => letterEntry avail (String.mk l)) := by
  induction ls with
  | nil => rfl
  | cons l t ih => simp [letterSignsLoop, ih]

/-- C5: the letter-spelling sequence has exactly one entry per reduced unit
in order, the entry at each position carries that unit's textual identity,
and units without an available landmark become null-asset placeholder
entries rather than being dropped. -/
theorem claim_C5_letter_placeholders (avail : List String) (word : String) :
    ((getWordAsLetterSequence avail word).length =
      (optionBLetters word.data).length) ∧
    (∀ (i : Nat) (u : List Char), (optionBLetters word.data)[i]? = some u →
      (getWordAsLetterSequence avail word)[i]? =
        some (letterEntry avail (String.mk u))) ∧
    (∀ u : List Char, strMem (String.mk u) avail = false →
      (letterEntry avail (String.mk u)).landmarkData = none ∧
      (letterEntry avail (String.mk u)).letter = String.mk u ∧
      (letterEntry avail (String.mk u)).label =
        "unknown_letter_" ++ String.mk u) := by
  refine ⟨?_, ?_, ?_⟩
  · rw [getWordAsLetterSequence, letterSignsLoop_eq_map]
    simp
  · intro i u h
    rw [getWordAsLetterSequence, letterSignsLoop_eq_map]
    simp [h]
  · intro u h
    simp [letterEntry, h]

/-- Witness for C5 at the word `කt` whose second reduced unit `t` has no
landmark entry. -/
theorem claim_C5_witness :
    (optionBLetters "කt".data)[1]? = some ['t'] ∧
    (getWordAsLetterSequence [] "කt")[1]? =
      some (letterEntry [] (String.mk ['t'])) ∧
    strMem (String.mk ['t']) [] = false ∧
    (letterEntry [] (String.mk ['t'])).landmarkData = none := by
  refine ⟨by decide, ?_, by decide, ?_⟩
  · exact (claim_C5_letter_placeholders [] "කt").2.1 1 ['t'] (by decide)
  · exact ((claim_C5_letter_placeholders [] "කt").2.2 ['t'] (by decide)).1

lemma normalizePrebase_ne_nil (c : Char) (l : List Char) :
    normalizePrebase (c :: l) ≠ [] := by
  cases l with
  | nil => simp only [normalizePrebase]; split_ifs <;> simp
  | cons c1 rest =>
    rw [normalizePrebase.eq_def]
    repeat' split
    all_goals simp_all

lemma breakWordToLetters_ne_nil (c : Char) (l : List Char) :
    breakWordToLetters (c :: l) ≠ [] := by
  cases l with
  | nil => simp only [breakWordToLetters]; split_ifs <;> simp
  | cons c1 rest =>
    simp only [breakWordToLetters]
    repeat' split
    all_goals simp

lemma reduceOptionB_ne_nil (t : List Char) (ts : List (List Char)) :
    reduceOptionB (t :: ts) ≠ [] := by
  cases ts with
  | nil =>
    simp only [reduceOptionB]
    repeat' split
    all_goals simp
  | cons t1 rest =>
    simp only [reduceOptionB]
    repeat' split
    all_goals simp

lemma optionBLetters_ne_nil (w : List Char) (h : w ≠ []) :
    optionBLetters w ≠ [] := by
  obtain ⟨c, l, rfl⟩ := List.exists_cons_of_ne_nil h
  rw [optionBLetters]
  cases hn : normalizePrebase (c :: l) with
  | nil => exact absurd hn (normalizePrebase_ne_nil c l)
  | cons c2 l2 =>
    cases hb : breakWordToLetters (c2 :: l2) with
    | nil => exact absurd hb (breakWordToLetters_ne_nil c2 l2)
    | cons t ts => exact reduceOptionB_ne_nil t ts

lemma getWordAsLetterSequence_ne_nil (avail : List String) (word : String)
    (h : word ≠ "") : getWordAsLetterSequence avail word ≠ [] := by
  have hd : word.data ≠ [] := fun hnil =>
    h (String.ext (hnil.trans rfl))
  rw [getWordAsLetterSequence]
  cases ho : optionBLetters word.data with
  | nil => exact absurd ho (optionBLetters_ne_nil word.data hd)
  | cons u us => simp [letterSignsLoop]

/-- Counterexample to C4 as stated: the resolved label `letter_කා` contains
Sinhala combining marks and reduces to more than one option-B unit, yet the
loop keeps the original sign instead of substituting the letter-spelling
sequence, because the label starts with the prefix `letter_`. -/
theorem claim_C4_counterexample :
    hasSinhalaCombiningMarksStr "letter_කා" = true ∧
    1 < expectedOptionBLen [] "letter_කා" ∧
    enhanceSign []
        { label := "letter_කා", hasVideo := false, hasAnimation := false,
          hasLandmark := true } =
      [OutSign.orig
        { label := "letter_කා", hasVideo := false, hasAnimation := false,
          hasLandmark := true }] ∧
    enhanceSign []
        { label := "letter_කා", hasVideo := false, hasAnimation := false,
          hasLandmark := true } ≠
      (getWordAsLetterSequence [] "letter_කා").map OutSign.letter := by
  refine ⟨by decide, by decide, ?_, ?_⟩ <;> decide

/-- C4 (amended): for a resolved label that is nonempty and does not start
with the letter prefix, the loop replaces the sign with the ordered
letter-spelling sequence of the label both when no media kind is available
and when the label contains Sinhala combining marks and reduces to more
than one option-B unit. -/
theorem claim_C4_fallback_override (avail : List String) (s : SignInfo)
    (hne : s.label ≠ "") (hpre : labelStartsWithLetter s.label = false) :
    ((s.hasVideo = false ∧ s.hasAnimation = false ∧ s.hasLandmark = false) →
      enhanceSign avail s =
        (getWordAsLetterSequence avail s.label).map OutSign.letter) ∧
    ((hasSinhalaCombiningMarksStr s.label = true ∧
        1 < expectedOptionBLen avail s.label) →
      enhanceSign avail s =
        (getWordAsLetterSequence avail s.label).map OutSign.letter) := by
  have hg := getWordAsLetterSequence_ne_nil avail s.label hne
  constructor
  · rintro ⟨v, a, l⟩
    rw [enhanceSign, if_pos ⟨v, a, l, hne, hpre⟩]
    cases hgl : getWordAsLetterSequence avail s.label with
    | nil => exact absurd hgl hg
    | cons x xs => rfl
  · rintro ⟨hm, hl⟩
    by_cases hassets :
        s.hasVideo = false ∧ s.hasAnimation = false ∧ s.hasLandmark = false
    · obtain ⟨v, a, l⟩ := hassets
      rw [enhanceSign, if_pos ⟨v, a, l, hne, hpre⟩]
      cases hgl : getWordAsLetterSequence avail s.label with
      | nil => exact absurd hgl hg
      | cons x xs => rfl
    · rw [enhanceSign, if_neg (fun hh => hassets ⟨hh.1, hh.2.1, hh.2.2.1⟩),
        if_pos ⟨hne, hpre, hm, hl⟩]
      cases hgl : getWordAsLetterSequence avail s.label with
      | nil => exact absurd hgl hg
      | cons x xs => rfl

/-- Witness for the amended C4 at the label `කා`, once with no assets and
once with a video asset that the combining-mark override discards. -/
theorem claim_C4_witness :
    enhanceSign []
        { label := "කා", hasVideo := false, hasAnimation := false,
          hasLandmark := false } =
      (getWordAsLetterSequence [] "කා").map OutSign.letter ∧
    enhanceSign []
        { label := "කා", hasVideo := true, hasAnimation := false,
          hasLandmark := false } =
      (getWordAsLetterSequence [] "කා").map OutSign.letter := by
  constructor
  · exact (claim_C4_fallback_override []
      { label := "කා", hasVideo := false, hasAnimation := false,
        hasLandmark := false } (by decide) (by decide)).1 ⟨rfl, rfl, rfl⟩
  · exact (claim_C4_fallback_override []
      { label := "කා", hasVideo := true, hasAnimation := false,
        hasLandmark := false } (by decide) (by decide)).2 ⟨by decide, by decide⟩

/-- C9: `CharacterByCharacterMappingRule.is_applicable` holds exactly when
every character of the token is a key of the character table and the tag is
allowed — a collection tag counting as allowed when any of its once-flattened
elements is allowed, a scalar tag when it itself is allowed, and a `None`
tag never — and the context argument never affects the result. -/
theorem claim_C9_cbc_is_applicable {γ : Type} (table : List (String × SignDict))
    (allowed : List Tag) (token : String) (tag : PyTag) (ctx : γ) :
    (cbcIsApplicable table allowed token tag ctx = true ↔
      ((∀ ch ∈ token.data, (lookupW table (String.mk [ch])).isSome = true) ∧
        match tag with
        | PyTag.none => False
        | PyTag.atom t => t ∈ allowed
        | PyTag.coll items => ∃ t ∈ flattenTags items, t ∈ allowed)) ∧
    (∀ (δ : Type) (ctx2 : δ),
      cbcIsApplicable table allowed token tag ctx2 =
        cbcIsApplicable table allowed token tag ctx) := by
  constructor
  · rw [cbcIsApplicable, Bool.and_eq_true, tagAllowed.eq_def]
    cases tag with
    | none => simp
    | atom t => simp [List.all_eq_true, and_comm]
    | coll items => simp [List.all_eq_true, List.any_eq_true, and_comm]
  · intro δ ctx2
    rfl

/-- Witness for C9 at a one-entry table, the token `අ` and a nested
collection tag. -/
theorem claim_C9_witness :
    cbcIsApplicable [("අ", { signs := [["A"]], weights := [1] })] [Tag.default]
        "අ" (PyTag.coll [PyTagElem.group [Tag.unknown, Tag.default]]) () =
      true := by
  exact (claim_C9_cbc_is_applicable _ _ _ _ ()).1.mpr
    ⟨by decide, ⟨Tag.default, by decide, by decide⟩⟩


lemma filterMap_getD_of_isSome (l : List Char) (f : Char → Option SignDict)
    (h : ∀ x ∈ l, (f x).isSome = true) :
    l.filterMap f = l.map (fun x => (f x).getD ⟨[], []⟩) := by
  induction l with
  | nil => rfl
  | cons d ds ih =>
    have hd := h d (by simp)
    cases hl : f d with
    | none => rw [hl] at hd; simp at hd
    | some sd =>
      simp only [List.filterMap_cons, List.map_cons, hl, Option.getD_some]
      rw [ih (fun x hx => h x (by simp [hx]))]

/-- The word table used by the C6 witness: a single entry for the digit
nine. -/
def wtNine : List (String × SignDict) :=
  [("9", { signs := [["nine"]], weights := [1] })]

/-- C6: the number rule is applicable exactly when the tag equals Number and
every digit character of the token has its own single-character entry in the
word table, and applying it returns one sign dictionary per digit of the
token, in digit order. -/
theorem claim_C6_number_rule (wt : List (String × SignDict)) (token : String)
    (tag : PyTag) :
    (numberIsApplicable wt token tag = true ↔
      (pyTagIsNumber tag = true ∧
        ∀ d ∈ token.data, d.isDigit = true →
          (lookupW wt (String.mk [d])).isSome = true)) ∧
    (numberIsApplicable wt token tag = true →
      numberApply wt token =
        (tokenDigits token).map
          (fun d => (lookupW wt (String.mk [d])).getD ⟨[], []⟩) ∧
      (numberApply wt token).length = (tokenDigits token).length) := by
  have hiff : numberIsApplicable wt token tag = true ↔
      (pyTagIsNumber tag = true ∧
        ∀ d ∈ token.data, d.isDigit = true →
          (lookupW wt (String.mk [d])).isSome = true) := by
    rw [numberIsApplicable, Bool.and_eq_true, List.all_eq_true]
    simp [tokenDigits, List.mem_filter]
  refine ⟨hiff, fun h => ?_⟩
  have hall : ∀ d ∈ tokenDigits token,
      (lookupW wt (String.mk [d])).isSome = true := by
    intro d hd
    rw [tokenDigits, List.mem_filter] at hd
    exact (hiff.mp h).2 d hd.1 hd.2
  have hmap := filterMap_getD_of_isSome (tokenDigits token)
    (fun d => lookupW wt (String.mk [d])) hall
  constructor
  · rw [numberApply]; exact hmap
  · rw [numberApply, hmap, List.length_map]

/-- Witness for C6: the token `99` with tag Number and a table entry for the
digit nine yields exactly two sign dictionaries, each the entry for `9`. -/
theorem claim_C6_witness :
    numberIsApplicable wtNine "99" (PyTag.atom Tag.number) = true ∧
    numberApply wtNine "99" =
      [{ signs := [["nine"]], weights := [1] },
       { signs := [["nine"]], weights := [1] }] := by
  refine ⟨by decide, ?_⟩
  have h :=
    ((claim_C6_number_rule wtNine "99" (PyTag.atom Tag.number)).2
      (by decide)).1
  rw [h]
  decide

lemma applyRulesFrom_eq_find {γ : Type} (wt : List (String × SignDict))
    (rs : List SinRule) (token : String) (tag : PyTag) (ctx : γ) :
    applyRulesFrom wt rs token tag ctx =
      (rs.find? (fun r => ruleIsApplicable wt r token tag ctx)).map
        (fun r => ruleApply wt r token) := by
  induction rs with
  | nil => rfl
  | cons r rest ih =>
    rw [applyRulesFrom]
    by_cases h : ruleIsApplicable wt r token tag ctx = true
    · simp [h, List.find?_cons]
    · simp only [Bool.not_eq_true] at h
      simp [h, List.find?_cons, ih]

/-- The word table used by the C1 witness: a two-character word entry plus
single-letter entries for both of its characters, so that the direct rule
and the spelling rule are simultaneously applicable. -/
def wtBoth : List (String × SignDict) :=
  [("අඉ", { signs := [["word"]], weights := [1] }),
   ("අ", { signs := [["A"]], weights := [1] }),
   ("ඉ", { signs := [["I"]], weights := [1] })]

/-- C1: rule dispatch scans the priority-sorted rule list and returns the
apply-result of the first applicable rule (the `find?` characterisation —
no later rule is consulted once one matched); the constructed rule list is
direct (priority 1), number (3), spelling (5) in ascending order; and
whenever the direct rule is applicable its result is the one returned, in
particular ahead of the character-by-character spelling rule. -/
theorem claim_C1_priority_dispatch {γ : Type} (wt : List (String × SignDict))
    (rs : List SinRule) (token : String) (tag : PyTag) (ctx : γ) :
    (applyRulesFrom wt rs token tag ctx =
      (rs.find? (fun r => ruleIsApplicable wt r token tag ctx)).map
        (fun r => ruleApply wt r token)) ∧
    mappingRules = [SinRule.direct, SinRule.number, SinRule.spelling] ∧
    (directIsApplicable wt (lowerStr token) = true →
      applyRules wt token tag ctx =
        some (directApply wt (lowerStr token))) := by
  refine ⟨applyRulesFrom_eq_find wt rs token tag ctx, rfl, fun h => ?_⟩
  rw [applyRules]
  rw [show mappingRules = [SinRule.direct, SinRule.number, SinRule.spelling]
    from rfl]
  rw [applyRulesFrom]
  simp [ruleIsApplicable, ruleApply, h]

/-- Witness for C1: a token applicable to both the direct rule and the
spelling rule resolves to the direct rule's result, not the spelling
rule's. -/
theorem claim_C1_witness :
    directIsApplicable wtBoth (lowerStr "අඉ") = true ∧
    spellingIsApplicable wtBoth (lowerStr "අඉ") (PyTag.atom Tag.default) () =
      true ∧
    applyRules wtBoth "අඉ" (PyTag.atom Tag.default) () =
      some [{ signs := [["word"]], weights := [1] }] ∧
    spellingApply wtBoth (lowerStr "අඉ") ≠
      [{ signs := [["word"]], weights := [1] }] := by
  refine ⟨by decide, by decide, ?_, by decide⟩
  have h := (claim_C1_priority_dispatch wtBoth [] "අඉ"
    (PyTag.atom Tag.default) ()).2.2 (by decide)
  rw [h]
  decide

/-- C2: when no rule applies (`_apply_rules` fails), the caller performs
exactly one retry, forcing the spelling rule's applicability with the
relaxed tag Default on the lowercased token; if the retry applies, its
apply-result is returned, and otherwise the final no-sign-inferred error
naming the token is raised. -/
theorem claim_C2_retry_and_final_error {γ : Type}
    (wt : List (String × SignDict)) (token : String) (tag : PyTag) (ctx : γ)
    (h : applyRules wt token tag ctx = none) :
    (spellingIsApplicable wt (lowerStr token) (PyTag.atom Tag.default) ctx =
        true →
      processToken wt token tag ctx =
        TokenResult.ok (spellingApply wt (lowerStr token))) ∧
    (spellingIsApplicable wt (lowerStr token) (PyTag.atom Tag.default) ctx =
        false →
      processToken wt token tag ctx = TokenResult.noSignInferred token) := by
  rw [processToken, h]
  constructor <;> intro h2 <;> simp [h2]

/-- Witness for C2 at the empty word table, where no rule and no retry can
apply and the final error names the token. -/
theorem claim_C2_witness :
    applyRules ([] : List (String × SignDict)) "ab" (PyTag.atom Tag.default)
        () = none ∧
    spellingIsApplicable ([] : List (String × SignDict)) (lowerStr "ab")
        (PyTag.atom Tag.default) () = false ∧
    processToken ([] : List (String × SignDict)) "ab" (PyTag.atom Tag.default)
        () = TokenResult.noSignInferred "ab" := by
  refine ⟨by decide, by decide, ?_⟩
  exact (claim_C2_retry_and_final_error [] "ab" (PyTag.atom Tag.default) ()
    (by decide)).2 (by decide)

lemma normPB_swap_fold_o (c : Char) (r : List Char)
    (h : isConsonant c = true) :
    normalizePrebase ('ෙ' :: c :: 'ා' :: r) = c :: 'ො' :: normalizePrebase r := by
  rw [normalizePrebase.eq_def]
  simp [h]

lemma normPB_swap_fold_e (c : Char) (r : List Char)
    (h : isConsonant c = true) :
    normalizePrebase ('ෙ' :: c :: 'ී' :: r) = c :: 'ේ' :: normalizePrebase r := by
  rw [normalizePrebase.eq_def]
  simp [h]

lemma normPB_swap (c : Char) (rest : List Char) (h : isConsonant c = true)
    (hr : ∀ d, rest.head? = some d → d ≠ 'ා' ∧ d ≠ 'ී') :
    normalizePrebase ('ෙ' :: c :: rest) = c :: 'ෙ' :: normalizePrebase rest := by
  cases rest with
  | nil => rw [normalizePrebase.eq_def]; simp [h]
  | cons d r =>
    obtain ⟨h1, h2⟩ := hr d rfl
    rw [normalizePrebase.eq_def]
    simp [h, h1, h2]

lemma normPB_fold_o (c : Char) (r : List Char) (h : isConsonant c = true) :
    normalizePrebase (c :: 'ෙ' :: 'ා' :: r) = c :: 'ො' :: normalizePrebase r := by
  have hne : c ≠ 'ෙ' := by
    intro hEq
    rw [hEq] at h
    exact absurd h (by decide)
  rw [normalizePrebase.eq_def]
  simp [h, hne]

lemma normPB_fold_e (c : Char) (r : List Char) (h : isConsonant c = true) :
    normalizePrebase (c :: 'ෙ' :: 'ී' :: r) = c :: 'ේ' :: normalizePrebase r := by
  have hne : c ≠ 'ෙ' := by
    intro hEq
    rw [hEq] at h
    exact absurd h (by decide)
  rw [normalizePrebase.eq_def]
  simp [h, hne]

lemma normPB_cons_e (c : Char) (rest : List Char) (h : isConsonant c = true)
    (hr : ∀ d, rest.head? = some d → d ≠ 'ා' ∧ d ≠ 'ී') :
    normalizePrebase (c :: 'ෙ' :: rest) = c :: 'ෙ' :: normalizePrebase rest := by
  have hne : c ≠ 'ෙ' := by
    intro hEq
    rw [hEq] at h
    exact absurd h (by decide)
  cases rest with
  | nil => rw [normalizePrebase.eq_def]; simp [h, hne]
  | cons d r =>
    obtain ⟨h1, h2⟩ := hr d rfl
    rw [normalizePrebase.eq_def]
    simp [h, hne, h1, h2]

lemma normPB_cons_m (c m : Char) (r : List Char) (h : isConsonant c = true)
    (hm : m = 'ො' ∨ m = 'ෝ' ∨ m = 'ෞ') :
    normalizePrebase (c :: m :: r) = c :: m :: normalizePrebase r := by
  have hne : c ≠ 'ෙ' := by
    intro hEq
    rw [hEq] at h
    exact absurd h (by decide)
  have hme : m ≠ 'ෙ' := by
    rcases hm with h1 | h1 | h1 <;> rw [h1] <;> decide
  rw [normalizePrebase.eq_def]
  simp [h, hne, hme, hm]

lemma normPB_cons_other (c : Char) (rest : List Char)
    (h : isConsonant c = true)
    (hr : ∀ d, rest.head? = some d → d ≠ 'ෙ' ∧ d ≠ 'ො' ∧ d ≠ 'ෝ' ∧ d ≠ 'ෞ') :
    normalizePrebase (c :: rest) = c :: normalizePrebase rest := by
  have hne : c ≠ 'ෙ' := by
    intro hEq
    rw [hEq] at h
    exact absurd h (by decide)
  cases rest with
  | nil => rw [normalizePrebase.eq_def]; simp [h, hne]; rfl
  | cons d r =>
    obtain ⟨h1, h2, h3, h4⟩ := hr d rfl
    rw [normalizePrebase.eq_def]
    simp [h, hne, h1, h2, h3, h4]

lemma normPB_pass (ch : Char) (rest : List Char)
    (hc : isConsonant ch = false) (hne : ch ≠ 'ෙ') :
    normalizePrebase (ch :: rest) = ch :: normalizePrebase rest := by
  cases rest with
  | nil => rw [normalizePrebase.eq_def]; simp [hc, hne]; rfl
  | cons d r => rw [normalizePrebase.eq_def]; simp [hc, hne]

lemma normPB_e_noncons (rest : List Char)
    (hr : ∀ d, rest.head? = some d → isConsonant d = false) :
    normalizePrebase ('ෙ' :: rest) = 'ෙ' :: normalizePrebase rest := by
  cases rest with
  | nil => rfl
  | cons d r =>
    have h1 := hr d rfl
    rw [normalizePrebase.eq_def]
    simp [h1]

lemma normPB_swap_head (a : Char) (r : List Char) (ha : isConsonant a = true) :
    (normalizePrebase ('ෙ' :: a :: r)).head? = some a := by
  cases r with
  | nil => rw [normPB_swap a [] ha (by simp)]; rfl
  | cons b r2 =>
    by_cases hb : b = 'ා'
    · subst hb; rw [normPB_swap_fold_o a r2 ha]; rfl
    · by_cases hb2 : b = 'ී'
      · subst hb2; rw [normPB_swap_fold_e a r2 ha]; rfl
      · rw [normPB_swap a (b :: r2) ha
          (by intro d hd; simp at hd; subst hd; exact ⟨hb, hb2⟩)]
        rfl

lemma normPB_cons_head (c : Char) (rest : List Char)
    (h : isConsonant c = true) :
    (normalizePrebase (c :: rest)).head? = some c := by
  cases rest with
  | nil => rw [normPB_cons_other c [] h (by simp)]; rfl
  | cons d r =>
    by_cases hd : d = 'ෙ'
    · subst hd
      cases r with
      | nil => rw [normPB_cons_e c [] h (by simp)]; rfl
      | cons e r2 =>
        by_cases he : e = 'ා'
        · subst he; rw [normPB_fold_o c r2 h]; rfl
        · by_cases he2 : e = 'ී'
          · subst he2; rw [normPB_fold_e c r2 h]; rfl
          · rw [normPB_cons_e c (e :: r2) h
              (by intro x hx; simp at hx; subst hx; exact ⟨he, he2⟩)]
            rfl
    · by_cases hm : d = 'ො' ∨ d = 'ෝ' ∨ d = 'ෞ'
      · rw [normPB_cons_m c d r h hm]; rfl
      · push_neg at hm
        rw [normPB_cons_other c (d :: r) h
          (by intro x hx; simp at hx; subst hx;
              exact ⟨hd, hm.1, hm.2.1, hm.2.2⟩)]
        rfl

lemma normPB_head (v : List Char) :
    (normalizePrebase v).head? = v.head? ∨
      ∃ x, (normalizePrebase v).head? = some x ∧ isConsonant x = true := by
  cases v with
  | nil => exact Or.inl rfl
  | cons ch rest =>
    by_cases hcons : isConsonant ch = true
    · exact Or.inl (by rw [normPB_cons_head ch rest hcons]; rfl)
    · by_cases hch : ch = 'ෙ'
      · subst hch
        cases rest with
        | nil => exact Or.inl rfl
        | cons a rest2 =>
          by_cases ha : isConsonant a = true
          · exact Or.inr ⟨a, normPB_swap_head a rest2 ha, ha⟩
          · rw [normPB_e_noncons (a :: rest2)
              (by intro d hd; simp at hd; subst hd;
                  exact Bool.eq_false_iff.mpr ha)]
            exact Or.inl rfl
      · rw [normPB_pass ch rest (Bool.eq_false_iff.mpr hcons) hch]
        exact Or.inl rfl

lemma normPB_head_not_ai (v : List Char)
    (hv : ∀ d, v.head? = some d → d ≠ 'ා' ∧ d ≠ 'ී') :
    ∀ d, (normalizePrebase v).head? = some d → d ≠ 'ා' ∧ d ≠ 'ී' := by
  intro d hd
  rcases normPB_head v with h | ⟨x, hx, hcons⟩
  · exact hv d (h ▸ hd)
  · rw [hx] at hd
    injection hd with hd
    subst hd
    constructor
    · intro hEq; rw [hEq] at hcons; exact absurd hcons (by decide)
    · intro hEq; rw [hEq] at hcons; exact absurd hcons (by decide)

lemma normPB_head_not_special (v : List Char)
    (hv : ∀ d, v.head? = some d →
      d ≠ 'ෙ' ∧ d ≠ 'ො' ∧ d ≠ 'ෝ' ∧ d ≠ 'ෞ') :
    ∀ d, (normalizePrebase v).head? = some d →
      d ≠ 'ෙ' ∧ d ≠ 'ො' ∧ d ≠ 'ෝ' ∧ d ≠ 'ෞ' := by
  intro d hd
  rcases normPB_head v with h | ⟨x, hx, hcons⟩
  · exact hv d (h ▸ hd)
  · rw [hx] at hd
    injection hd with hd
    subst hd
    refine ⟨?_, ?_, ?_, ?_⟩ <;>
      (intro hEq; rw [hEq] at hcons; exact absurd hcons (by decide))

/-- Absence of two consecutive pre-base signs `ෙ` in a string: the
hypothesis under which the storage-order normalisation pass is
idempotent. -/
def noDoubleE : List Char → Bool
  | [] => true
  | [_] => true
  | a :: b :: rest => !(a == 'ෙ' && b == 'ෙ') && noDoubleE (b :: rest)

lemma noDoubleE_tail (a : Char) (l : List Char)
    (h : noDoubleE (a :: l) = true) : noDoubleE l = true := by
  cases l with
  | nil => rfl
  | cons b t =>
    rw [noDoubleE, Bool.and_eq_true] at h
    exact h.2

lemma noDoubleE_second (b : Char) (t : List Char)
    (h : noDoubleE ('ෙ' :: b :: t) = true) : b ≠ 'ෙ' := by
  rw [noDoubleE, Bool.and_eq_true] at h
  intro hEq
  subst hEq
  simp at h

lemma normPB_idem_aux :
    ∀ (n : Nat) (w : List Char), w.length ≤ n → noDoubleE w = true →
      normalizePrebase (normalizePrebase w) = normalizePrebase w := by
  intro n
  induction n with
  | zero =>
    intro w hlen _
    have : w = [] := List.length_eq_zero.mp (Nat.le_zero.mp hlen)
    subst this
    rfl
  | succ n ih =>
    intro w hlen hnd
    cases w with
    | nil => rfl
    | cons ch rest =>
      by_cases hch : ch = 'ෙ'
      · subst hch
        cases rest with
        | nil => decide
        | cons a rest2 =>
          by_cases ha : isConsonant a = true
          · cases rest2 with
            | nil =>
              rw [normPB_swap a [] ha (by simp)]
              rw [show normalizePrebase ([] : List Char) = [] from rfl]
              rw [normPB_cons_e a [] ha (by simp)]
              rfl
            | cons b rest3 =>
              by_cases hb : b = 'ා'
              · subst hb
                rw [normPB_swap_fold_o a rest3 ha]
                rw [normPB_cons_m a 'ො' (normalizePrebase rest3) ha
                  (Or.inl rfl)]
                rw [ih rest3 (by simp at hlen ⊢; omega)
                  (noDoubleE_tail _ _ (noDoubleE_tail _ _
                    (noDoubleE_tail _ _ hnd)))]
              · by_cases hb2 : b = 'ී'
                · subst hb2
                  rw [normPB_swap_fold_e a rest3 ha]
                  rw [normPB_cons_other a ('ේ' :: normalizePrebase rest3) ha
                    (by intro d hd; simp at hd; subst hd
                        exact ⟨by decide, by decide, by decide, by decide⟩)]
                  rw [normPB_pass 'ේ' (normalizePrebase rest3) (by decide)
                    (by decide)]
                  rw [ih rest3 (by simp at hlen ⊢; omega)
                    (noDoubleE_tail _ _ (noDoubleE_tail _ _
                      (noDoubleE_tail _ _ hnd)))]
                · have hhead : ∀ d, (b :: rest3).head? = some d →
                      d ≠ 'ා' ∧ d ≠ 'ී' := by
                    intro d hd; simp at hd; subst hd; exact ⟨hb, hb2⟩
                  rw [normPB_swap a (b :: rest3) ha hhead]
                  rw [normPB_cons_e a (normalizePrebase (b :: rest3)) ha
                    (normPB_head_not_ai (b :: rest3) hhead)]
                  rw [ih (b :: rest3) (by simp at hlen ⊢; omega)
                    (noDoubleE_tail _ _ (noDoubleE_tail _ _ hnd))]
          · have hafalse : isConsonant a = false := Bool.eq_false_iff.mpr ha
            have hane : a ≠ 'ෙ' := noDoubleE_second a rest2 hnd
            rw [normPB_e_noncons (a :: rest2)
              (by intro d hd; simp at hd; subst hd; exact hafalse)]
            rw [normPB_pass a rest2 hafalse hane]
            rw [normPB_e_noncons (a :: normalizePrebase rest2)
              (by intro d hd; simp at hd; subst hd; exact hafalse)]
            rw [normPB_pass a (normalizePrebase rest2) hafalse hane]
            rw [ih rest2 (by simp at hlen ⊢; omega)
              (noDoubleE_tail _ _ (noDoubleE_tail _ _ hnd))]
      · by_cases hcons : isConsonant ch = true
        · cases rest with
          | nil =>
            rw [normPB_cons_other ch [] hcons (by simp)]
            rw [show normalizePrebase ([] : List Char) = [] from rfl]
            rw [normPB_cons_other ch [] hcons (by simp)]
            rfl
          | cons b rest2 =>
            by_cases hb : b = 'ෙ'
            · subst hb
              cases rest2 with
              | nil =>
                rw [normPB_cons_e ch [] hcons (by simp)]
                rw [show normalizePrebase ([] : List Char) = [] from rfl]
                rw [normPB_cons_e ch [] hcons (by simp)]
                rfl
              | cons d rest3 =>
                by_cases hd : d = 'ා'
                · subst hd
                  rw [normPB_fold_o ch rest3 hcons]
                  rw [normPB_cons_m ch 'ො' (normalizePrebase rest3) hcons
                    (Or.inl rfl)]
                  rw [ih rest3 (by simp at hlen ⊢; omega)
                    (noDoubleE_tail _ _ (noDoubleE_tail _ _
                      (noDoubleE_tail _ _ hnd)))]
                · by_cases hd2 : d = 'ී'
                  · subst hd2
                    rw [normPB_fold_e ch rest3 hcons]
                    rw [normPB_cons_other ch
                      ('ේ' :: normalizePrebase rest3) hcons
                      (by intro x hx; simp at hx; subst hx
                          exact ⟨by decide, by decide, by decide, by decide⟩)]
                    rw [normPB_pass 'ේ' (normalizePrebase rest3) (by decide)
                      (by decide)]
                    rw [ih rest3 (by simp at hlen ⊢; omega)
                      (noDoubleE_tail _ _ (noDoubleE_tail _ _
                        (noDoubleE_tail _ _ hnd)))]
                  · have hhead : ∀ x, (d :: rest3).head? = some x →
                        x ≠ 'ා' ∧ x ≠ 'ී' := by
                      intro x hx; simp at hx; subst hx; exact ⟨hd, hd2⟩
                    rw [normPB_cons_e ch (d :: rest3) hcons hhead]
                    rw [normPB_cons_e ch (normalizePrebase (d :: rest3)) hcons
                      (normPB_head_not_ai (d :: rest3) hhead)]
                    rw [ih (d :: rest3) (by simp at hlen ⊢; omega)
                      (noDoubleE_tail _ _ (noDoubleE_tail _ _ hnd))]
            · by_cases hm : b = 'ො' ∨ b = 'ෝ' ∨ b = 'ෞ'
              · rw [normPB_cons_m ch b rest2 hcons hm]
                rw [normPB_cons_m ch b (normalizePrebase rest2) hcons hm]
                rw [ih rest2 (by simp at hlen ⊢; omega)
                  (noDoubleE_tail _ _ (noDoubleE_tail _ _ hnd))]
              · push_neg at hm
                have hhead : ∀ x, (b :: rest2).head? = some x →
                    x ≠ 'ෙ' ∧ x ≠ 'ො' ∧ x ≠ 'ෝ' ∧ x ≠ 'ෞ' := by
                  intro x hx; simp at hx; subst hx
                  exact ⟨hb, hm.1, hm.2.1, hm.2.2⟩
                rw [normPB_cons_other ch (b :: rest2) hcons hhead]
                rw [normPB_cons_other ch (normalizePrebase (b :: rest2)) hcons
                  (normPB_head_not_special (b :: rest2) hhead)]
                rw [ih (b :: rest2) (by simp at hlen ⊢; omega)
                  (noDoubleE_tail _ _ hnd)]
        · have hf : isConsonant ch = false := Bool.eq_false_iff.mpr hcons
          rw [normPB_pass ch rest hf hch]
          rw [normPB_pass ch (normalizePrebase rest) hf hch]
          rw [ih rest (by simp at hlen ⊢; omega) (noDoubleE_tail _ _ hnd)]

/-- C8: storage-order normalisation swaps the pre-base vowel sign `ෙ`
stored before a consonant to follow it, folds the recognised split two-mark
sequences (`ෙ` then `ා` into `ො`, and `ෙ` then `ී` into `ේ`) after a
consonant — also when the pre-base sign was stored before the consonant —
and passes every other character through in its original position. -/
theorem claim_C8_prebase_normalisation :
    (∀ (c : Char) (r : List Char), isConsonant c = true →
      normalizePrebase ('ෙ' :: c :: 'ා' :: r) =
        c :: 'ො' :: normalizePrebase r) ∧
    (∀ (c : Char) (r : List Char), isConsonant c = true →
      normalizePrebase ('ෙ' :: c :: 'ී' :: r) =
        c :: 'ේ' :: normalizePrebase r) ∧
    (∀ (c : Char) (rest : List Char), isConsonant c = true →
      (∀ d, rest.head? = some d → d ≠ 'ා' ∧ d ≠ 'ී') →
      normalizePrebase ('ෙ' :: c :: rest) =
        c :: 'ෙ' :: normalizePrebase rest) ∧
    (∀ (c : Char) (r : List Char), isConsonant c = true →
      normalizePrebase (c :: 'ෙ' :: 'ා' :: r) =
        c :: 'ො' :: normalizePrebase r) ∧
    (∀ (c : Char) (r : List Char), isConsonant c = true →
      normalizePrebase (c :: 'ෙ' :: 'ී' :: r) =
        c :: 'ේ' :: normalizePrebase r) ∧
    (∀ (c : Char) (rest : List Char), isConsonant c = true →
      (∀ d, rest.head? = some d → d ≠ 'ා' ∧ d ≠ 'ී') →
      normalizePrebase (c :: 'ෙ' :: rest) =
        c :: 'ෙ' :: normalizePrebase rest) ∧
    (∀ (c m : Char) (r : List Char), isConsonant c = true →
      (m = 'ො' ∨ m = 'ෝ' ∨ m = 'ෞ') →
      normalizePrebase (c :: m :: r) = c :: m :: normalizePrebase r) ∧
    (∀ (c : Char) (rest : List Char), isConsonant c = true →
      (∀ d, rest.head? = some d →
        d ≠ 'ෙ' ∧ d ≠ 'ො' ∧ d ≠ 'ෝ' ∧ d ≠ 'ෞ') →
      normalizePrebase (c :: rest) = c :: normalizePrebase rest) ∧
    (∀ (ch : Char) (rest : List Char), isConsonant ch = false → ch ≠ 'ෙ' →
      normalizePrebase (ch :: rest) = ch :: normalizePrebase rest) ∧
    (∀ rest : List Char, (∀ d, rest.head? = some d →
        isConsonant d = false) →
      normalizePrebase ('ෙ' :: rest) = 'ෙ' :: normalizePrebase rest) :=
  ⟨normPB_swap_fold_o, normPB_swap_fold_e, normPB_swap, normPB_fold_o,
    normPB_fold_e, normPB_cons_e, normPB_cons_m, normPB_cons_other,
    normPB_pass, normPB_e_noncons⟩

/-- Witness for C8: the stored sequence `ෙ` `ක` `ා` normalises to `ක` `ො`
(swap plus fold), and the in-order split sequence `ක` `ෙ` `ී` folds to
`ක` `ේ`. -/
theorem claim_C8_witness :
    normalizePrebase ['ෙ', 'ක', 'ා'] = ['ක', 'ො'] ∧
    normalizePrebase ['ක', 'ෙ', 'ී'] = ['ක', 'ේ'] := by
  constructor
  · rw [claim_C8_prebase_normalisation.1 'ක' [] (by decide)]
    rfl
  · rw [claim_C8_prebase_normalisation.2.2.2.2.1 'ක' [] (by decide)]
    rfl

/-- Counterexample to C10 as stated: normalisation is not idempotent on the
input `ෙ` `ෙ` `ක`, whose first pass yields `ෙ` `ක` `ෙ` and whose second
pass swaps again, yielding `ක` `ෙ` `ෙ`. -/
theorem claim_C10_counterexample :
    normalizePrebase (normalizePrebase ['ෙ', 'ෙ', 'ක']) ≠
      normalizePrebase ['ෙ', 'ෙ', 'ක'] := by
  decide

/-- C10 (amended): the storage-order normalisation pass is idempotent on
every input with no two consecutive pre-base signs `ෙ`. -/
theorem claim_C10_normalisation_idempotent (w : List Char)
    (h : noDoubleE w = true) :
    normalizePrebase (normalizePrebase w) = normalizePrebase w :=
  normPB_idem_aux w.length w (Nat.le_refl _) h

/-- Witness for the amended C10 at a swapped-and-folded input. -/
theorem claim_C10_witness :
    noDoubleE ['ෙ', 'ක', 'ා', 'ත'] = true ∧
    normalizePrebase (normalizePrebase ['ෙ', 'ක', 'ා', 'ත']) =
      normalizePrebase ['ෙ', 'ක', 'ා', 'ත'] :=
  ⟨by decide, claim_C10_normalisation_idempotent ['ෙ', 'ක', 'ා', 'ත']
    (by decide)⟩
